import Mathlib

/-!
Verification of the game-of-commons zome (`src/dna/zomes/game_logic`).

This file gives a shallow embedding of the game logic: the pure functions
(`finalize_moves`, `calculate_round_state`, `player_stats_from_moves`,
`can_start_new_round`) are translated directly from the Rust source, and the
orchestration functions (`try_to_close_round`, `new_session`, `end_game`) are
embedded with the host DHT modelled as an explicit read-only `World` plus an
explicit trace of write `Effect`s.

Modelling conventions:
* `AgentPubKey`, `EntryHash`, `HeaderHash` are opaque identities, modelled as `ℕ`
  (agent keys are totally ordered byte strings in Holochain; `ℕ` keeps the order).
* Rust `i32` values are modelled as `ℤ`.  The source performs unchecked `i32`
  additions and subtractions; the crate's build profile (which decides whether
  overflow panics or wraps) is not part of the source tree, and the spec requires
  overflow to surface as a fatal arithmetic error, so those operations are
  modelled as checked (`i32Checked`), returning `GameError.arithmeticOverflow`
  outside the `i32` range.  Rust's `f32 as i32` cast saturates (it never errors
  and never wraps); it is modelled faithfully by `f32ToI32`.
* Rust `f32` values are exact dyadic rationals `m / 2^k`, with IEEE-754
  round-to-nearest-even (`f32OfRat`) applied at every operation, exactly as the
  hardware does for all finite values arising here.
* `BTreeMap` is modelled as a strictly key-sorted association list (`btUpsert`),
  which reproduces `BTreeMap`'s lookup, insert and ascending iteration order.
-/

namespace GameOfCommons

/-- Opaque agent identity (ordered, as Holochain agent keys are). -/
abbrev AgentPubKey := ℕ

/-- Opaque entry hash. -/
abbrev EntryHash := ℕ

/-- Opaque header hash. -/
abbrev HeaderHash := ℕ

/-- `pub type ResourceAmount = i32;` — modelled as `ℤ` with explicit range checks. -/
abbrev ResourceAmount := ℤ

/-- Error taxonomy of the embedding: `WasmError`-style failures of the host
calls plus the fatal arithmetic error required by the spec for `i32` overflow. -/
inductive GameError where
  | notFound
  | decodeError
  | arithmeticOverflow
deriving DecidableEq, Repr

instance {ε α : Type} [DecidableEq ε] [DecidableEq α] : DecidableEq (Except ε α) :=
  fun a b =>
    match a, b with
    | .error e1, .error e2 => decidable_of_iff (e1 = e2) (by simp)
    | .error _, .ok _ => isFalse (by simp)
    | .ok _, .error _ => isFalse (by simp)
    | .ok v1, .ok v2 => decidable_of_iff (v1 = v2) (by simp)

/-- Smallest `i32` value. -/
def I32_MIN : ℤ := -2147483648

/-- Largest `i32` value. -/
def I32_MAX : ℤ := 2147483647

/-- Checked `i32` arithmetic: the source's unchecked `+`/`-` on `i32`, with
overflow surfaced as a fatal arithmetic error (the build profile deciding
panic-vs-wrap is not under `src/`; the spec mandates a surfaced fatal error). -/
def i32Checked (x : ℤ) : Except GameError ℤ :=
  if I32_MIN ≤ x ∧ x ≤ I32_MAX then .ok x else .error .arithmeticOverflow

/-! ### Exact model of the `f32` arithmetic used by `calculate_round_state`

A finite `f32` is a dyadic rational.  We represent it exactly and implement
IEEE-754 binary32 round-to-nearest-even on integer arithmetic only, so that
every concrete computation reduces in the kernel. -/

/-- A dyadic rational `m / 2^k`; every finite `f32` value has this form. -/
structure F32 where
  m : ℤ
  k : ℕ
deriving DecidableEq, Repr

/-- Fuel-driven bit length of a natural number (`bitlen n = ⌊log2 n⌋ + 1` for
`n > 0`, `0` for `n = 0`).  The fuel `1400` is far beyond the size of any
number produced by binary32 data, so the function is exact on all inputs that
arise. -/
def bitlenAux : ℕ → ℕ → ℕ
  | 0, _ => 0
  | fuel + 1, n => if n = 0 then 0 else bitlenAux fuel (n / 2) + 1

/-- Bit length of a natural number. -/
def bitlen (n : ℕ) : ℕ := bitlenAux 1400 n

/-- `⌊log2 (a / b)⌋` for integers `a, b > 0`. -/
def ratLog2 (a b : ℤ) : ℤ :=
  let e0 : ℤ := (bitlen a.natAbs : ℤ) - (bitlen b.natAbs : ℤ)
  if 0 ≤ e0 then
    if b * (2 ^ e0.natAbs) ≤ a then e0 else e0 - 1
  else
    if b ≤ a * (2 ^ e0.natAbs) then e0 else e0 - 1

/-- Round `a / b` (with `b > 0`) to the nearest integer, ties to even. -/
def rne (a b : ℤ) : ℤ :=
  let f := a.fdiv b
  let r := a - f * b
  if 2 * r < b then f
  else if b < 2 * r then f + 1
  else if f % 2 = 0 then f else f + 1

/-- Round the rational `a / b` (with `b > 0`) to the nearest binary32 value
(round-to-nearest-even), returned as an exact dyadic rational.  Exponents are
clamped below at the subnormal range; values beyond the finite range are kept
exact, which composed with the saturating `f32ToI32` cast yields the same
`i32` results as IEEE overflow-to-infinity would. -/
def f32OfRat (a b : ℤ) : F32 :=
  if a = 0 then ⟨0, 0⟩
  else
    let e := max (ratLog2 (a.natAbs : ℤ) b) (-126)
    let d : ℤ := e - 23
    let mAbs :=
      if 0 ≤ d then rne (a.natAbs : ℤ) (b * 2 ^ d.natAbs)
      else rne ((a.natAbs : ℤ) * 2 ^ d.natAbs) b
    let mSigned := if a < 0 then -mAbs else mAbs
    if 0 ≤ d then ⟨mSigned * 2 ^ d.natAbs, 0⟩ else ⟨mSigned, d.natAbs⟩

/-- An `f32` literal written as the decimal fraction `a / b` in the source
(e.g. `1.1` is `f32Lit 11 10`): the compiler rounds it to the nearest `f32`. -/
def f32Lit (a b : ℤ) : F32 := f32OfRat a b

/-- Rust `x as f32` for an `i32` value `x` (round to nearest). -/
def i32ToF32 (x : ℤ) : F32 := f32OfRat x 1

/-- IEEE binary32 multiplication on exact representations. -/
def f32Mul (x y : F32) : F32 := f32OfRat (x.m * y.m) (2 ^ (x.k + y.k))

/-- Truncation of a dyadic rational towards zero (no range clamp). -/
def f32TruncUnclamped (x : F32) : ℤ := x.m.tdiv (2 ^ x.k)

/-- Rust `x as i32` for an `f32` value `x`: truncate towards zero and
saturate at the `i32` bounds (Rust float-to-int casts saturate; they never
error and never wrap). -/
def f32ToI32 (x : F32) : ℤ := max I32_MIN (min I32_MAX (f32TruncUnclamped x))

/-! ### `BTreeMap` model: strictly key-sorted association lists -/

/-- Insert-or-modify for a key-sorted association list: the single primitive
underlying both `BTreeMap::insert` (replace) and the `get_mut`/push pattern.
`f none` is the value stored for an absent key, `f (some v)` the replacement
for a present value `v`. -/
def btUpsert {β : Type} (mp : List (ℕ × β)) (key : ℕ) (f : Option β → β) :
    List (ℕ × β) :=
  match mp with
  | [] => [(key, f none)]
  | (k2, v2) :: rest =>
    if key < k2 then (key, f none) :: (k2, v2) :: rest
    else if key = k2 then (k2, f (some v2)) :: rest
    else (k2, v2) :: btUpsert rest key f

/-- Lookup in an association list (`BTreeMap::get`). -/
def btLookup {β : Type} (mp : List (ℕ × β)) (key : ℕ) : Option β :=
  (mp.find? (fun p => p.1 == key)).map (·.2)

/-- `pub type PlayerStats = BTreeMap<AgentPubKey, ResourceAmount>;` -/
abbrev PlayerStats := List (AgentPubKey × ResourceAmount)

/-! ### Data model -/

/-- `struct GameMove` (entry). -/
structure GameMove where
  owner : AgentPubKey
  round_hash : EntryHash
  resource_amount : ResourceAmount
deriving DecidableEq, Repr

/-- `struct RoundState`. -/
structure RoundState where
  resources_left : ResourceAmount
  resources_taken : ResourceAmount
  resources_grown : ResourceAmount
  player_stats : PlayerStats
deriving DecidableEq, Repr

/-- `struct GameRound` (entry). -/
structure GameRound where
  round_num : ℕ
  session : EntryHash
  state : RoundState
deriving DecidableEq, Repr

/-- `GameRound::new`. -/
def GameRound.new (round_num : ℕ) (session : EntryHash)
    (resources_left resources_taken resources_grown : ResourceAmount)
    (player_stats : PlayerStats) : GameRound :=
  ⟨round_num, session, ⟨resources_left, resources_taken, resources_grown, player_stats⟩⟩

/-- `enum SessionState`. -/
inductive SessionState where
  | InProgress
  | Lost (last_round : EntryHash)
  | Finished (last_round : EntryHash)
deriving DecidableEq, Repr

/-- `struct GameParams`.  `regeneration_factor` is an `f32`. -/
structure GameParams where
  regeneration_factor : F32
  start_amount : ResourceAmount
  num_rounds : ℕ
deriving DecidableEq, Repr

/-- `struct GameSession` (entry). -/
structure GameSession where
  owner : AgentPubKey
  status : SessionState
  game_params : GameParams
  players : List AgentPubKey
  scores : PlayerStats
  anchor : EntryHash
deriving DecidableEq, Repr

/-- `struct PlayerProfile` (entry). -/
structure PlayerProfile where
  player_id : AgentPubKey
  nickname : String
deriving DecidableEq, Repr

/-- `struct GameRoundInfo` — the UI-facing result of `try_to_close_round`. -/
structure GameRoundInfo where
  round_num : ℕ
  resources_left : Option ResourceAmount
  resources_taken_round : Option ResourceAmount
  resources_grown_round : Option ResourceAmount
  current_round_entry_hash : Option EntryHash
  prev_round_entry_hash : Option EntryHash
  game_session_hash : Option EntryHash
  next_action : String
  moves : List (ResourceAmount × String × AgentPubKey)
deriving DecidableEq, Repr

/-- `struct SignalPayload`. -/
structure SignalPayload where
  game_session_entry_hash : EntryHash
  round_entry_hash_update : EntryHash
deriving DecidableEq, Repr

/-- `enum GameSignal`. -/
inductive GameSignal where
  | PlayerJoined (p : PlayerProfile)
  | StartGame (p : SignalPayload)
  | StartNextRound (p : SignalPayload)
  | GameOver (p : SignalPayload)
deriving DecidableEq, Repr

/-! ### Pure game logic (`utils.rs`, `game_move.rs`, `game_round.rs`) -/

/-- `utils::player_stats_from_moves`: collect `(owner, resource_amount)` pairs
into a `BTreeMap` (a later pair with the same owner replaces the earlier one,
matching `BTreeMap` `FromIterator`). -/
def player_stats_from_moves (game_moves : List GameMove) : PlayerStats :=
  game_moves.foldl (fun acc mv => btUpsert acc mv.owner (fun _ => mv.resource_amount)) []

/-- One step of the grouping loop in `finalize_moves`: `get_mut` and push, or
insert a fresh singleton vector. -/
def pushMove (mp : List (AgentPubKey × List GameMove)) (mv : GameMove) :
    List (AgentPubKey × List GameMove) :=
  btUpsert mp mv.owner (fun o => (o.getD []) ++ [mv])

/-- `game_move::finalize_moves`.  All source paths return `Ok`; the
`ExternResult` wrapper is kept so that "never fails" is a statement about the
function, not about its type. -/
def finalize_moves (moves : List GameMove) (number_of_players : ℕ) :
    Except GameError (Option (List GameMove)) :=
  if moves.length < number_of_players then .ok none
  else
    let moves_per_player := moves.foldl pushMove []
    if moves_per_player.length < number_of_players then .ok none
    else .ok (some (moves_per_player.map (fun kv => kv.2.headD ⟨0, 0, 0⟩)))

/-- The `sum()` of the moves' `resource_amount`s, with each `i32` addition
checked (see `i32Checked`). -/
def checkedSumAux : ℤ → List ℤ → Except GameError ℤ
  | acc, [] => .ok acc
  | acc, x :: xs =>
    match i32Checked (acc + x) with
    | .error e => .error e
    | .ok y => checkedSumAux y xs

/-- `game_round::calculate_round_state`. -/
def calculate_round_state (last_round : GameRound) (params : GameParams)
    (player_moves : List GameMove) : Except GameError RoundState :=
  match checkedSumAux 0 (player_moves.map GameMove.resource_amount) with
  | .error e => .error e
  | .ok consumed_resources_in_round =>
    match i32Checked (last_round.state.resources_left - consumed_resources_in_round) with
    | .error e => .error e
    | .ok resources_left =>
      let total_leftover_resource :=
        f32ToI32 (f32Mul (i32ToF32 resources_left) params.regeneration_factor)
      match i32Checked (total_leftover_resource - resources_left) with
      | .error e => .error e
      | .ok grown_resources_in_round =>
        .ok ⟨total_leftover_resource, consumed_resources_in_round,
             grown_resources_in_round, player_stats_from_moves player_moves⟩

/-- `game_round::can_start_new_round`. -/
def can_start_new_round (game_session : GameSession) (prev_round : GameRound)
    (round_state : RoundState) : Bool :=
  decide (prev_round.round_num + 1 < game_session.game_params.num_rounds)
    && decide (0 < round_state.resources_left)

/-! ### Host (DHT) model

Reads are served by an explicit `World` (the participant's current local view of
the DHT); writes and signals are collected into an explicit `Effect` trace. -/

/-- Entries that the zome commits. -/
inductive Entry where
  | session (s : GameSession)
  | round (r : GameRound)
  | game_move (m : GameMove)
deriving DecidableEq, Repr

/-- A retrieved `Element`: its header address and (optionally present) entry. -/
structure Element where
  header_address : HeaderHash
  entry : Option Entry
deriving DecidableEq, Repr

/-- `const GAME_MOVE_LINK_TAG`. -/
def GAME_MOVE_LINK_TAG : String := "GAME_MOVE"

/-- `const OWNER_SESSION_TAG`. -/
def OWNER_SESSION_TAG : String := "MY_GAMES"

/-- `const GAME_CODE_TO_SESSION_TAG`. -/
def GAME_CODE_TO_SESSION_TAG : String := "GAME_SESSION"

/-- `const SESSION_TO_ROUND_TAG`. -/
def SESSION_TO_ROUND_TAG : String := "GAME_ROUND"

/-- The participant's current read view of the DHT plus ambient host context:
stored elements, discovery links, the content-address function and the calling
agent's key. -/
structure World where
  elements : List (EntryHash × Element)
  links : List (EntryHash × String × EntryHash)
  hashE : Entry → EntryHash
  agent_key : AgentPubKey

/-- A write or signal emitted by the zome, in program order. -/
inductive Effect where
  | create (e : Entry)
  | update (prior : HeaderHash) (e : Entry)
  | link (base : EntryHash) (target : EntryHash) (tag : String)
  | signal (s : GameSignal) (recipients : List AgentPubKey)
deriving DecidableEq, Repr

/-- `get(entry_hash, ...)`: look the element up in the local view. -/
def wget (w : World) (h : EntryHash) : Option Element :=
  (w.elements.find? (fun p => p.1 == h)).map (·.2)

/-- `get_links(base, Some(tag))`: targets of the matching links, in view order. -/
def wlinks (w : World) (base : EntryHash) (tag : String) : List EntryHash :=
  (w.links.filter (fun l => l.1 == base && l.2.1 == tag)).map (·.2.2)

/-- `utils::try_get_element`. -/
def try_get_element (w : World) (entry_hash : EntryHash) : Except GameError Element :=
  match wget w entry_hash with
  | some element => .ok element
  | none => .error .notFound

/-- `utils::try_from_element::<GameRound>`. -/
def try_from_element_round (element : Element) : Except GameError GameRound :=
  match element.entry with
  | some (.round r) => .ok r
  | _ => .error .decodeError

/-- `utils::try_from_element::<GameSession>`. -/
def try_from_element_session (element : Element) : Except GameError GameSession :=
  match element.entry with
  | some (.session s) => .ok s
  | _ => .error .decodeError

/-- `utils::try_get_and_convert::<GameMove>`. -/
def try_get_and_convert_move (w : World) (entry_hash : EntryHash) :
    Except GameError GameMove :=
  match wget w entry_hash with
  | some element =>
    match element.entry with
    | some (.game_move m) => .ok m
    | _ => .error .decodeError
  | none => .error .notFound

/-- The retrieval loop of `game_move::get_moves_for_round`. -/
def get_moves_loop (w : World) : List EntryHash → Except GameError (List GameMove)
  | [] => .ok []
  | t :: rest =>
    match try_get_and_convert_move w t with
    | .error e => .error e
    | .ok m =>
      match get_moves_loop w rest with
      | .error e => .error e
      | .ok ms => .ok (m :: ms)

/-- `game_move::get_moves_for_round`. -/
def get_moves_for_round (w : World) (last_round_hash : EntryHash) :
    Except GameError (List GameMove) :=
  get_moves_loop w (wlinks w last_round_hash GAME_MOVE_LINK_TAG)

/-- `game_round::create_new_round`: build round `N+1` and commit it as an
update of round `N`; returns the new entry hash and the write performed. -/
def create_new_round (w : World) (_ : GameSession) (last_round : GameRound)
    (last_round_header_hash : HeaderHash) (round_state : RoundState) :
    EntryHash × List Effect :=
  let next_round := GameRound.new (last_round.round_num + 1) last_round.session
    round_state.resources_left round_state.resources_taken round_state.resources_grown
    round_state.player_stats
  (w.hashE (.round next_round), [.update last_round_header_hash (.round next_round)])

/-- `game_round::try_to_close_round`: poll the round, aggregate the moves and
either advance, report game end, or keep waiting.  Returns the `GameRoundInfo`
together with the trace of writes performed. -/
def try_to_close_round (w : World) (last_round_hash : EntryHash) :
    Except GameError (GameRoundInfo × List Effect) :=
  match try_get_element w last_round_hash with
  | .error e => .error e
  | .ok last_round_element =>
  match try_from_element_round last_round_element with
  | .error e => .error e
  | .ok last_round =>
  match try_get_element w last_round.session with
  | .error e => .error e
  | .ok _game_session_element =>
  match try_from_element_session _game_session_element with
  | .error e => .error e
  | .ok game_session =>
  match get_moves_for_round w last_round_hash with
  | .error e => .error e
  | .ok moves =>
  match finalize_moves moves game_session.players.length with
  | .error e => .error e
  | .ok (some unique_moves) =>
    let moves_info := unique_moves.map (fun gm => (gm.resource_amount, "playername", gm.owner))
    match calculate_round_state last_round game_session.game_params unique_moves with
    | .error e => .error e
    | .ok round_state =>
      if can_start_new_round game_session last_round round_state then
        let rh := create_new_round w game_session last_round
          last_round_element.header_address round_state
        .ok (⟨last_round.round_num + 1, some round_state.resources_left,
              some round_state.resources_taken, some round_state.resources_grown,
              some rh.1, some last_round_hash, none, "START_NEXT_ROUND", moves_info⟩,
             rh.2)
      else
        .ok (⟨last_round.round_num + 1, none, none, none, none, none, none,
              "SHOW_GAME_RESULTS", []⟩, [])
  | .ok none =>
    .ok (⟨last_round.round_num, none, none, none, none, some last_round_hash,
          some last_round.session, "WAITING", []⟩, [])

/-- `game_session::others`: every player other than the calling agent. -/
def others (w : World) (players : List AgentPubKey) : List AgentPubKey :=
  players.filter (fun p => p ≠ w.agent_key)

/-- `game_session::new_session`: create the session entry, its discovery links,
the synthetic round zero, and signal the other players.  Returns the round-zero
entry hash and the trace of writes performed.  (The source performs no
validation of `players`.) -/
def new_session (w : World) (players : List AgentPubKey) (game_params : GameParams)
    (anchor : EntryHash) : Except GameError (EntryHash × List Effect) :=
  let game_session : GameSession :=
    ⟨w.agent_key, .InProgress, game_params, players, [], anchor⟩
  let game_session_entry_hash := w.hashE (.session game_session)
  let round_zero := GameRound.new 0 game_session_entry_hash
    game_session.game_params.start_amount 0 0 []
  let entry_hash_round_zero := w.hashE (.round round_zero)
  .ok (entry_hash_round_zero,
    [.create (.session game_session),
     .link w.agent_key game_session_entry_hash OWNER_SESSION_TAG,
     .link anchor game_session_entry_hash GAME_CODE_TO_SESSION_TAG,
     .create (.round round_zero),
     .link game_session_entry_hash entry_hash_round_zero SESSION_TO_ROUND_TAG,
     .signal (.StartGame ⟨game_session_entry_hash, entry_hash_round_zero⟩)
       (others w players)])

/-- `game_session::end_game`: decide `Lost`/`Finished` from the final round
state, write the session update carrying the scores, and signal the players.
Returns the updated session's entry hash and the trace of writes performed. -/
def end_game (w : World) (game_session : GameSession)
    (game_session_header_hash : HeaderHash) (_ : GameRound)
    (last_round_entry_hash : EntryHash) (round_state : RoundState) :
    Except GameError (EntryHash × List Effect) :=
  let game_status :=
    if round_state.resources_left ≤ 0 then SessionState.Lost last_round_entry_hash
    else SessionState.Finished last_round_entry_hash
  let game_session_update : GameSession :=
    ⟨game_session.owner, game_status, game_session.game_params,
     game_session.players, round_state.player_stats, game_session.anchor⟩
  let game_session_entry_hash_update := w.hashE (.session game_session_update)
  .ok (game_session_entry_hash_update,
    [.update game_session_header_hash (.session game_session_update),
     .signal (.GameOver ⟨game_session_entry_hash_update, last_round_entry_hash⟩)
       game_session.players])

/-! ### Lemmas about the ordered-map primitive -/

/-- Sortedness predicate of the association lists (the `BTreeMap` invariant). -/
def btSorted {β : Type} (mp : List (ℕ × β)) : Prop :=
  mp.Pairwise (fun a b => a.1 < b.1)

theorem mem_keys_btUpsert {β : Type} (mp : List (ℕ × β)) (key : ℕ) (f : Option β → β)
    (a : ℕ) : a ∈ (btUpsert mp key f).map Prod.fst ↔ a = key ∨ a ∈ mp.map Prod.fst := by
  induction mp with
  | nil => simp [btUpsert]
  | cons hd tl ih =>
    obtain ⟨k2, v2⟩ := hd
    by_cases h1 : key < k2
    · simp [btUpsert, h1]
    · by_cases h2 : key = k2
      · subst h2
        simp [btUpsert, h1]
      · simp [btUpsert, h1, h2, ih]
        tauto

theorem btSorted_btUpsert {β : Type} (mp : List (ℕ × β)) (key : ℕ) (f : Option β → β)
    (h : btSorted mp) : btSorted (btUpsert mp key f) := by
  induction mp with
  | nil => simp [btUpsert, btSorted]
  | cons hd tl ih =>
    obtain ⟨k2, v2⟩ := hd
    rw [btSorted, List.pairwise_cons] at h
    obtain ⟨hhd, htl⟩ := h
    by_cases h1 : key < k2
    · rw [btSorted]
      simp only [btUpsert, if_pos h1]
      refine List.Pairwise.cons ?_ (List.Pairwise.cons hhd htl)
      intro b hb
      rcases List.mem_cons.mp hb with rfl | hb
      · exact h1
      · exact lt_trans h1 (hhd b hb)
    · by_cases h2 : key = k2
      · subst h2
        rw [btSorted]
        simp only [btUpsert, if_neg h1, if_pos rfl]
        exact List.Pairwise.cons hhd htl
      · have hk2 : k2 < key := by omega
        rw [btSorted]
        simp only [btUpsert, if_neg h1, if_neg h2]
        refine List.Pairwise.cons ?_ (ih htl)
        intro b hb
        have hbk : b.1 = key ∨ b.1 ∈ tl.map Prod.fst :=
          (mem_keys_btUpsert tl key f b.1).mp (List.mem_map_of_mem Prod.fst hb)
        rcases hbk with hbk | hbk
        · omega
        · obtain ⟨c, hc, hceq⟩ := List.mem_map.mp hbk
          have := hhd c hc
          omega

theorem btLookup_cons {β : Type} (k2 : ℕ) (v2 : β) (tl : List (ℕ × β)) (key : ℕ) :
    btLookup ((k2, v2) :: tl) key = if k2 = key then some v2 else btLookup tl key := by
  by_cases h : k2 = key
  · simp [btLookup, List.find?_cons_of_pos, h]
  · have : ((k2, v2).1 == key) = false := by simpa using h
    simp [btLookup, List.find?_cons_of_neg, this, h]

theorem btLookup_eq_none {β : Type} (mp : List (ℕ × β)) (key : ℕ)
    (h : key ∉ mp.map Prod.fst) : btLookup mp key = none := by
  induction mp with
  | nil => rfl
  | cons hd tl ih =>
    obtain ⟨k2, v2⟩ := hd
    simp only [List.map_cons, List.mem_cons] at h
    push_neg at h
    rw [btLookup_cons, if_neg (fun hh => h.1 hh.symm)]
    exact ih h.2

theorem btLookup_btUpsert_ne {β : Type} (mp : List (ℕ × β)) (key key' : ℕ)
    (f : Option β → β) (hne : key' ≠ key) :
    btLookup (btUpsert mp key f) key' = btLookup mp key' := by
  induction mp with
  | nil =>
    show btLookup [(key, f none)] key' = none
    rw [btLookup_cons, if_neg (fun hh => hne hh.symm)]
    rfl
  | cons hd tl ih =>
    obtain ⟨k2, v2⟩ := hd
    by_cases h1 : key < k2
    · simp only [btUpsert, if_pos h1]
      rw [btLookup_cons, if_neg (fun hh => hne hh.symm)]
    · by_cases h2 : key = k2
      · subst h2
        simp only [btUpsert, if_neg h1, eq_self_iff_true, if_true]
        rw [btLookup_cons, btLookup_cons, if_neg (fun hh => hne hh.symm),
          if_neg (fun hh => hne hh.symm)]
      · simp only [btUpsert, if_neg h1, if_neg h2]
        rw [btLookup_cons, btLookup_cons, ih]

theorem btLookup_btUpsert_self {β : Type} (mp : List (ℕ × β)) (key : ℕ)
    (f : Option β → β) (h : btSorted mp) :
    btLookup (btUpsert mp key f) key = some (f (btLookup mp key)) := by
  induction mp with
  | nil =>
    show btLookup [(key, f none)] key = some (f none)
    rw [btLookup_cons, if_pos rfl]
  | cons hd tl ih =>
    obtain ⟨k2, v2⟩ := hd
    rw [btSorted, List.pairwise_cons] at h
    obtain ⟨hhd, htl⟩ := h
    by_cases h1 : key < k2
    · have hnone : btLookup ((k2, v2) :: tl) key = none := by
        apply btLookup_eq_none
        simp only [List.map_cons, List.mem_cons]
        push_neg
        constructor
        · omega
        · intro hmem
          obtain ⟨c, hc, hceq⟩ := List.mem_map.mp hmem
          have h3 : k2 < c.1 := hhd c hc
          omega
      simp only [btUpsert, if_pos h1]
      rw [btLookup_cons, if_pos rfl, hnone]
    · by_cases h2 : key = k2
      · subst h2
        simp only [btUpsert, if_neg h1, eq_self_iff_true, if_true]
        rw [btLookup_cons, if_pos rfl, btLookup_cons, if_pos rfl]
      · simp only [btUpsert, if_neg h1, if_neg h2]
        rw [btLookup_cons, if_neg (fun hh => h2 hh.symm), btLookup_cons,
          if_neg (fun hh => h2 hh.symm), ih htl]

theorem btLookup_mem {β : Type} (mp : List (ℕ × β)) (k : ℕ) (vs : β)
    (hs : btSorted mp) (hm : (k, vs) ∈ mp) : btLookup mp k = some vs := by
  induction mp with
  | nil => cases hm
  | cons hd tl ih =>
    obtain ⟨k2, v2⟩ := hd
    rw [btSorted, List.pairwise_cons] at hs
    rcases List.mem_cons.mp hm with heq | hm2
    · injection heq with h1 h2
      subst h1
      subst h2
      rw [btLookup_cons, if_pos rfl]
    · have hlt : k2 < k := hs.1 (k, vs) hm2
      rw [btLookup_cons, if_neg (by omega)]
      exact ih hs.2 hm2

theorem btSorted_keys_nodup {β : Type} (mp : List (ℕ × β)) (h : btSorted mp) :
    (mp.map Prod.fst).Nodup :=
  List.pairwise_map.mpr (h.imp fun hlt => Nat.ne_of_lt hlt)

/-- Keys accumulated by a fold of owner-keyed upserts: initial keys plus owners. -/
theorem mem_keys_foldl_upsert {β : Type} (g : GameMove → Option β → β)
    (ms : List GameMove) (init : List (ℕ × β)) (a : ℕ) :
    (a ∈ (ms.foldl (fun acc mv => btUpsert acc mv.owner (g mv)) init).map Prod.fst) ↔
      a ∈ init.map Prod.fst ∨ a ∈ ms.map GameMove.owner := by
  induction ms generalizing init with
  | nil => simp
  | cons m rest ih =>
    simp only [List.foldl_cons, List.map_cons, List.mem_cons]
    rw [ih, mem_keys_btUpsert]
    tauto

theorem btSorted_foldl_upsert {β : Type} (g : GameMove → Option β → β)
    (ms : List GameMove) (init : List (ℕ × β)) (h : btSorted init) :
    btSorted (ms.foldl (fun acc mv => btUpsert acc mv.owner (g mv)) init) := by
  induction ms generalizing init with
  | nil => exact h
  | cons m rest ih => exact ih _ (btSorted_btUpsert _ _ _ h)

theorem btLookup_foldl_upsert_not_mem {β : Type} (g : GameMove → Option β → β)
    (ms : List GameMove) (init : List (ℕ × β)) (k : ℕ)
    (hk : k ∉ ms.map GameMove.owner) :
    btLookup (ms.foldl (fun acc mv => btUpsert acc mv.owner (g mv)) init) k =
      btLookup init k := by
  induction ms generalizing init with
  | nil => rfl
  | cons m rest ih =>
    simp only [List.map_cons, List.mem_cons] at hk
    push_neg at hk
    simp only [List.foldl_cons]
    rw [ih _ hk.2, btLookup_btUpsert_ne _ _ _ _ hk.1]

/-- The per-owner lists accumulated by the grouping loop of `finalize_moves`:
each owner's bucket is the input-ordered sublist of their moves. -/
theorem btLookup_foldl_pushMove (ms : List GameMove)
    (init : List (AgentPubKey × List GameMove)) (k : ℕ) (h : btSorted init) :
    (btLookup (ms.foldl pushMove init) k).getD [] =
      (btLookup init k).getD [] ++ (ms.filter (fun m => m.owner == k)) := by
  induction ms generalizing init with
  | nil => simp
  | cons m rest ih =>
    simp only [List.foldl_cons, List.filter_cons]
    by_cases hk : m.owner = k
    · subst hk
      rw [ih (pushMove init m) (btSorted_btUpsert _ _ _ h)]
      have hlook : btLookup (pushMove init m) m.owner
          = some ((btLookup init m.owner).getD [] ++ [m]) :=
        btLookup_btUpsert_self _ _ _ h
      rw [hlook]
      simp only [Option.getD_some, beq_self_eq_true, if_pos rfl]
      rw [List.append_assoc]
      rfl
    · rw [ih (pushMove init m) (btSorted_btUpsert _ _ _ h)]
      have hlook : btLookup (pushMove init m) k = btLookup init k :=
        btLookup_btUpsert_ne _ _ _ _ (fun hh => hk hh.symm)
      rw [hlook]
      have hbeq : (m.owner == k) = false := by simpa using hk
      rw [hbeq]
      simp

theorem find?_eq_head?_filter {α : Type} (p : α → Bool) (l : List α) :
    l.find? p = (l.filter p).head? := by
  induction l with
  | nil => rfl
  | cons a l ih =>
    cases hpa : p a
    · rw [List.find?_cons_of_neg _ (by simp [hpa]), List.filter_cons, hpa, ih]
      simp
    · rw [List.find?_cons_of_pos _ (by simp [hpa]), List.filter_cons, hpa]
      simp

/-! ### Lemmas about the checked arithmetic -/

theorem checkedSumAux_ok (l : List ℤ) (acc v : ℤ) (h : checkedSumAux acc l = .ok v) :
    v = acc + l.sum := by
  induction l generalizing acc with
  | nil =>
    injection h with hh
    simp [hh]
  | cons x xs ih =>
    simp only [checkedSumAux] at h
    split at h
    · exact absurd h (by simp)
    next y hy =>
      have hyx : y = acc + x := by
        simp only [i32Checked] at hy
        split at hy
        · injection hy with hh
          omega
        · exact absurd hy (by simp)
      have := ih _ h
      simp only [List.sum_cons]
      omega

theorem checkedSumAux_error (l : List ℤ) (acc : ℤ) (e : GameError)
    (h : checkedSumAux acc l = .error e) : e = .arithmeticOverflow := by
  induction l generalizing acc with
  | nil => exact Except.noConfusion h
  | cons x xs ih =>
    simp only [checkedSumAux] at h
    split at h
    next e2 he2 =>
      injection h with hh
      subst hh
      simp only [i32Checked] at he2
      split at he2
      · exact absurd he2 (by simp)
      · injection he2 with hh2
        exact hh2.symm
    next y hy => exact ih _ h

/-- Inversion of a successful `calculate_round_state`: the exact arithmetic
relations between the output fields and the inputs. -/
theorem calculate_round_state_ok (r : GameRound) (p : GameParams) (ms : List GameMove)
    (s : RoundState) (h : calculate_round_state r p ms = .ok s) :
    s.resources_taken = (ms.map GameMove.resource_amount).sum ∧
    s.resources_left =
      f32ToI32 (f32Mul (i32ToF32 (r.state.resources_left - s.resources_taken))
        p.regeneration_factor) ∧
    s.resources_grown = s.resources_left - (r.state.resources_left - s.resources_taken) ∧
    s.player_stats = player_stats_from_moves ms := by
  simp only [calculate_round_state] at h
  split at h
  · exact absurd h (by simp)
  next consumed hsum =>
    split at h
    · exact absurd h (by simp)
    next left hleft =>
      split at h
      · exact absurd h (by simp)
      next grown hgrown =>
        have hc : consumed = (ms.map GameMove.resource_amount).sum := by
          have := checkedSumAux_ok _ _ _ hsum
          omega
        have hl : left = r.state.resources_left - consumed := by
          simp only [i32Checked] at hleft
          split at hleft
          · injection hleft with hh
            omega
          · exact absurd hleft (by simp)
        have hg : grown =
            f32ToI32 (f32Mul (i32ToF32 left) p.regeneration_factor) - left := by
          simp only [i32Checked] at hgrown
          split at hgrown
          · injection hgrown with hh
            omega
          · exact absurd hgrown (by simp)
        injection h with hs
        subst hs
        refine ⟨hc, ?_, ?_, rfl⟩
        · show f32ToI32 (f32Mul (i32ToF32 left) p.regeneration_factor) =
            f32ToI32 (f32Mul (i32ToF32 (r.state.resources_left - consumed)) p.regeneration_factor)
          rw [hl]
        · show grown =
            f32ToI32 (f32Mul (i32ToF32 left) p.regeneration_factor) -
              (r.state.resources_left - consumed)
          rw [hg, hl]

theorem foldl_pushMove_eq (ms : List GameMove) (init : List (AgentPubKey × List GameMove)) :
    ms.foldl pushMove init =
      ms.foldl (fun acc mv => btUpsert acc mv.owner (fun o => (o.getD []) ++ [mv])) init := rfl

theorem btSorted_foldl_pushMove (ms : List GameMove) : btSorted (ms.foldl pushMove []) := by
  rw [foldl_pushMove_eq]
  exact btSorted_foldl_upsert _ _ _ List.Pairwise.nil

theorem mem_keys_foldl_pushMove (ms : List GameMove) (a : ℕ) :
    a ∈ (ms.foldl pushMove []).map Prod.fst ↔ a ∈ ms.map GameMove.owner := by
  rw [foldl_pushMove_eq, mem_keys_foldl_upsert]
  simp

/-- The grouping loop of `finalize_moves` has exactly one bucket per distinct
author of the input. -/
theorem length_foldl_pushMove (ms : List GameMove) :
    (ms.foldl pushMove []).length = (ms.map GameMove.owner).toFinset.card := by
  have hnodup := btSorted_keys_nodup _ (btSorted_foldl_pushMove ms)
  have hkeys : ((ms.foldl pushMove []).map Prod.fst).toFinset
      = (ms.map GameMove.owner).toFinset := by
    ext a
    simp only [List.mem_toFinset]
    exact mem_keys_foldl_pushMove ms a
  calc (ms.foldl pushMove []).length
      = ((ms.foldl pushMove []).map Prod.fst).length := (List.length_map _ _).symm
    _ = ((ms.foldl pushMove []).map Prod.fst).toFinset.card :=
        (List.toFinset_card_of_nodup hnodup).symm
    _ = (ms.map GameMove.owner).toFinset.card := by rw [hkeys]

/-- Specification of any one bucket of the grouping loop: its value list is the
input-ordered sublist of that owner's moves, and the move `finalize_moves`
selects from it (`move_vec[0]`) is the first such move in input order. -/
theorem pushMove_group_spec (moves : List GameMove) (kv : AgentPubKey × List GameMove)
    (hkv : kv ∈ moves.foldl pushMove []) :
    kv.2 = moves.filter (fun m => m.owner == kv.1) ∧
    moves.find? (fun m => m.owner == kv.1) = some (kv.2.headD ⟨0, 0, 0⟩) ∧
    (kv.2.headD ⟨0, 0, 0⟩).owner = kv.1 := by
  have hsorted := btSorted_foldl_pushMove moves
  have hlook : btLookup (moves.foldl pushMove []) kv.1 = some kv.2 :=
    btLookup_mem _ _ _ hsorted (by simpa using hkv)
  have hval : kv.2 = moves.filter (fun m => m.owner == kv.1) := by
    have hfold := btLookup_foldl_pushMove moves [] kv.1 List.Pairwise.nil
    rw [hlook] at hfold
    simpa using hfold
  have hmem : kv.1 ∈ moves.map GameMove.owner :=
    (mem_keys_foldl_pushMove moves kv.1).mp (List.mem_map_of_mem Prod.fst hkv)
  have hne : moves.filter (fun m => m.owner == kv.1) ≠ [] := by
    obtain ⟨c, hc, hceq⟩ := List.mem_map.mp hmem
    intro hnil
    rw [List.filter_eq_nil_iff] at hnil
    exact hnil c hc (by simp [hceq])
  have hfind : moves.find? (fun m => m.owner == kv.1) = some (kv.2.headD ⟨0, 0, 0⟩) := by
    rw [find?_eq_head?_filter, ← hval]
    cases hk2 : kv.2 with
    | nil =>
      rw [hval] at hk2
      exact absurd hk2 hne
    | cons a t => simp
  refine ⟨hval, hfind, ?_⟩
  have := List.find?_some hfind
  simpa using this

/-- Claim C3: `finalize_moves` returns `Some` exactly when the input contains
moves from at least `expected_player_count` distinct authors; with fewer total
moves or fewer distinct authors it returns `None`. -/
theorem finalize_moves_some_iff (moves : List GameMove) (n : ℕ) :
    (∃ l, finalize_moves moves n = .ok (some l)) ↔
      n ≤ (moves.map GameMove.owner).toFinset.card := by
  have hcard : (moves.map GameMove.owner).toFinset.card ≤ moves.length := by
    calc (moves.map GameMove.owner).toFinset.card
        ≤ (moves.map GameMove.owner).length := List.toFinset_card_le _
      _ = moves.length := List.length_map _ _
  unfold finalize_moves
  by_cases h1 : moves.length < n
  · rw [if_pos h1]
    constructor
    · rintro ⟨l, hl⟩
      exact absurd hl (by simp)
    · intro hn
      omega
  · rw [if_neg h1]
    by_cases h2 : (moves.foldl pushMove []).length < n
    · rw [if_pos h2]
      rw [length_foldl_pushMove] at h2
      constructor
      · rintro ⟨l, hl⟩
        exact absurd hl (by simp)
      · intro hn
        omega
    · rw [if_neg h2]
      rw [length_foldl_pushMove] at h2
      constructor
      · intro _
        omega
      · intro _
        exact ⟨_, rfl⟩

/-- Counterexample to claim C4: with `expected_player_count = 1` and two moves
by two distinct authors, `finalize_moves` succeeds with a list of size `2`,
not size `expected_player_count = 1` (the output has one move per distinct
author, and distinct authors may exceed the expected count). -/
theorem finalize_moves_size_counterexample :
    finalize_moves [⟨1, 10, 5⟩, ⟨2, 10, 7⟩] 1
      = .ok (some [⟨1, 10, 5⟩, ⟨2, 10, 7⟩]) ∧
    ([(⟨1, 10, 5⟩ : GameMove), ⟨2, 10, 7⟩]).length ≠ 1 := by
  constructor
  · decide
  · decide

/-- Claim C4 (amended): on success the returned list has exactly one move per
distinct author of the input — its size is the number of distinct authors,
which is at least (but not always equal to) `expected_player_count` — and the
move chosen for each author is the first move of that author in input order. -/
theorem finalize_moves_dedup (moves : List GameMove) (n : ℕ) (l : List GameMove)
    (h : finalize_moves moves n = .ok (some l)) :
    n ≤ l.length ∧
    l.length = (moves.map GameMove.owner).toFinset.card ∧
    (l.map GameMove.owner).Nodup ∧
    (∀ a, a ∈ l.map GameMove.owner ↔ a ∈ moves.map GameMove.owner) ∧
    (∀ m ∈ l, moves.find? (fun x => x.owner == m.owner) = some m) := by
  unfold finalize_moves at h
  by_cases h1 : moves.length < n
  · rw [if_pos h1] at h
    exact absurd h (by simp)
  rw [if_neg h1] at h
  by_cases h2 : (moves.foldl pushMove []).length < n
  · rw [if_pos h2] at h
    exact absurd h (by simp)
  rw [if_neg h2] at h
  injection h with hsome
  injection hsome with hl
  subst hl
  have hmapowner : (moves.foldl pushMove []).map
      (fun kv => (kv.2.headD ⟨0, 0, 0⟩).owner) = (moves.foldl pushMove []).map Prod.fst :=
    List.map_congr_left (fun kv hkv => (pushMove_group_spec moves kv hkv).2.2)
  have howners : ((moves.foldl pushMove []).map (fun kv => kv.2.headD ⟨0, 0, 0⟩)).map
      GameMove.owner = (moves.foldl pushMove []).map Prod.fst := by
    rw [List.map_map]
    exact hmapowner
  refine ⟨?_, ?_, ?_, ?_, ?_⟩
  · rw [List.length_map]
    omega
  · rw [List.length_map]
    exact length_foldl_pushMove moves
  · rw [howners]
    exact btSorted_keys_nodup _ (btSorted_foldl_pushMove moves)
  · intro a
    rw [howners]
    exact mem_keys_foldl_pushMove moves a
  · intro m hm
    obtain ⟨kv, hkv, hkveq⟩ := List.mem_map.mp hm
    obtain ⟨-, hfind, howner⟩ := pushMove_group_spec moves kv hkv
    rw [← hkveq, howner]
    rw [hfind, hkveq]

/-- Witness for the amended C4: three moves by two authors (author `2` moved
twice); the result keeps one move per author, choosing author 2's first move
(amount 7, not 9). -/
theorem finalize_moves_dedup_witness :
    2 ≤ ([(⟨1, 10, 5⟩ : GameMove), ⟨2, 10, 7⟩]).length ∧
    ([(⟨1, 10, 5⟩ : GameMove), ⟨2, 10, 7⟩]).length =
      (([(⟨2, 10, 7⟩ : GameMove), ⟨1, 10, 5⟩, ⟨2, 10, 9⟩]).map GameMove.owner).toFinset.card ∧
    (([(⟨1, 10, 5⟩ : GameMove), ⟨2, 10, 7⟩]).map GameMove.owner).Nodup ∧
    (∀ a, a ∈ ([(⟨1, 10, 5⟩ : GameMove), ⟨2, 10, 7⟩]).map GameMove.owner ↔
      a ∈ ([(⟨2, 10, 7⟩ : GameMove), ⟨1, 10, 5⟩, ⟨2, 10, 9⟩]).map GameMove.owner) ∧
    (∀ m ∈ ([(⟨1, 10, 5⟩ : GameMove), ⟨2, 10, 7⟩]),
      ([(⟨2, 10, 7⟩ : GameMove), ⟨1, 10, 5⟩, ⟨2, 10, 9⟩]).find?
        (fun x => x.owner == m.owner) = some m) :=
  finalize_moves_dedup [⟨2, 10, 7⟩, ⟨1, 10, 5⟩, ⟨2, 10, 9⟩] 2
    [⟨1, 10, 5⟩, ⟨2, 10, 7⟩] (by decide)

/-- Claim C5: the arithmetic of `calculate_round_state` — consumption is the
sum of the moves' amounts, the new `resources_left` is the truncating `i32`
conversion of the `f32` product `(prev - consumed) * regeneration_factor`,
and `resources_grown` is that result minus the post-consumption amount. -/
theorem calculate_round_state_arithmetic (r : GameRound) (p : GameParams)
    (ms : List GameMove) (s : RoundState)
    (h : calculate_round_state r p ms = .ok s) :
    s.resources_taken = (ms.map GameMove.resource_amount).sum ∧
    s.resources_left =
      f32ToI32 (f32Mul (i32ToF32 (r.state.resources_left - s.resources_taken))
        p.regeneration_factor) ∧
    s.resources_grown = s.resources_left - (r.state.resources_left - s.resources_taken) := by
  obtain ⟨h1, h2, h3, -⟩ := calculate_round_state_ok r p ms s h
  exact ⟨h1, h2, h3⟩

/-- Previous round used in the concrete witness for C5 (`resources_left = 100`). -/
def roundC5 : GameRound := ⟨1, 20, ⟨100, 0, 0, []⟩⟩

/-- Game parameters of the C5 witness (`regeneration_factor = 1.1`). -/
def paramsC5 : GameParams := ⟨f32Lit 11 10, 100, 3⟩

/-- Finalized moves of the C5 witness, consuming `15` in total. -/
def movesC5 : List GameMove := [⟨1, 10, 5⟩, ⟨2, 10, 10⟩]

/-- Expected output state of the C5 witness: `floor(85 * 1.1) = 93`, taken `15`,
grown `8`. -/
def stateC5 : RoundState := ⟨93, 15, 8, [(1, 5), (2, 10)]⟩

/-- Witness for C5 at the spec's concrete example: `prev = 100`, consumption
`15`, factor `1.1` gives `resources_left = 93`, `resources_taken = 15`,
`resources_grown = 8`. -/
theorem calculate_round_state_arithmetic_witness :
    calculate_round_state roundC5 paramsC5 movesC5 = .ok stateC5 ∧
    (stateC5.resources_taken = (movesC5.map GameMove.resource_amount).sum ∧
     stateC5.resources_left =
       f32ToI32 (f32Mul (i32ToF32 (roundC5.state.resources_left - stateC5.resources_taken))
         paramsC5.regeneration_factor) ∧
     stateC5.resources_grown =
       stateC5.resources_left - (roundC5.state.resources_left - stateC5.resources_taken)) :=
  ⟨by decide, calculate_round_state_arithmetic roundC5 paramsC5 movesC5 stateC5 (by decide)⟩

/-- `calculate_round_state` reads nothing of the previous round except
`state.resources_left`; in particular the previous `player_stats` never
contribute to the result. -/
theorem calculate_round_state_only_left (r r' : GameRound) (p : GameParams)
    (ms : List GameMove) (hleft : r'.state.resources_left = r.state.resources_left) :
    calculate_round_state r' p ms = calculate_round_state r p ms := by
  simp only [calculate_round_state, hleft]

theorem stats_lookup_aux (ms : List GameMove) (m : GameMove)
    (hnd : (ms.map GameMove.owner).Nodup) (hm : m ∈ ms) (init : PlayerStats)
    (hs : btSorted init) :
    btLookup (ms.foldl (fun acc mv => btUpsert acc mv.owner
        (fun _ => mv.resource_amount)) init) m.owner = some m.resource_amount := by
  induction ms generalizing init with
  | nil => cases hm
  | cons m0 rest ih =>
    simp only [List.map_cons, List.nodup_cons] at hnd
    simp only [List.foldl_cons]
    rcases List.mem_cons.mp hm with rfl | hm2
    · rw [btLookup_foldl_upsert_not_mem _ _ _ _ hnd.1]
      exact btLookup_btUpsert_self _ _ _ hs
    · exact ih hnd.2 hm2 _ (btSorted_btUpsert _ _ _ hs)

/-- Claim C6: the `player_stats` of the computed round state has exactly one
entry per author of the finalized moves, mapping each author to that move's
`resource_amount`, and the previous round's `player_stats` contribute nothing
(replacement, not accumulation). -/
theorem calculate_round_state_player_stats (r : GameRound) (p : GameParams)
    (ms : List GameMove) (s : RoundState)
    (hnd : (ms.map GameMove.owner).Nodup)
    (h : calculate_round_state r p ms = .ok s) :
    (∀ m ∈ ms, btLookup s.player_stats m.owner = some m.resource_amount) ∧
    (s.player_stats.map Prod.fst).Nodup ∧
    (∀ a, a ∈ s.player_stats.map Prod.fst ↔ a ∈ ms.map GameMove.owner) ∧
    (∀ ps : PlayerStats, calculate_round_state
        ⟨r.round_num, r.session, ⟨r.state.resources_left, r.state.resources_taken,
          r.state.resources_grown, ps⟩⟩ p ms = .ok s) := by
  obtain ⟨-, -, -, hstats⟩ := calculate_round_state_ok r p ms s h
  refine ⟨?_, ?_, ?_, ?_⟩
  · intro m hm
    rw [hstats]
    exact stats_lookup_aux ms m hnd hm [] List.Pairwise.nil
  · rw [hstats]
    exact btSorted_keys_nodup _ (btSorted_foldl_upsert _ _ _ List.Pairwise.nil)
  · intro a
    rw [hstats]
    unfold player_stats_from_moves
    rw [mem_keys_foldl_upsert]
    simp
  · intro ps
    rw [calculate_round_state_only_left
      ⟨r.round_num, r.session, ⟨r.state.resources_left, r.state.resources_taken,
        r.state.resources_grown, ps⟩⟩ r p ms rfl] at h
    exact h

/-- Witness session state for C6: two authors, distinct amounts. -/
theorem calculate_round_state_player_stats_witness :
    (∀ m ∈ movesC5, btLookup stateC5.player_stats m.owner = some m.resource_amount) ∧
    (stateC5.player_stats.map Prod.fst).Nodup ∧
    (∀ a, a ∈ stateC5.player_stats.map Prod.fst ↔ a ∈ movesC5.map GameMove.owner) ∧
    (∀ ps : PlayerStats, calculate_round_state
        ⟨roundC5.round_num, roundC5.session, ⟨roundC5.state.resources_left,
          roundC5.state.resources_taken, roundC5.state.resources_grown, ps⟩⟩
        paramsC5 movesC5 = .ok stateC5) :=
  calculate_round_state_player_stats roundC5 paramsC5 movesC5 stateC5
    (by decide) (by decide)

/-- An `Except.error` result of `calculate_round_state` is always the fatal
arithmetic-overflow error. -/
theorem calculate_round_state_error (r : GameRound) (p : GameParams)
    (ms : List GameMove) (e : GameError)
    (h : calculate_round_state r p ms = .error e) : e = .arithmeticOverflow := by
  simp only [calculate_round_state] at h
  split at h
  next e2 he2 =>
    injection h with hh
    subst hh
    exact checkedSumAux_error _ _ _ he2
  next consumed hsum =>
    split at h
    next e2 he2 =>
      injection h with hh
      subst hh
      simp only [i32Checked] at he2
      split at he2
      · exact absurd he2 (by simp)
      · injection he2 with hh2
        exact hh2.symm
    next left hleft =>
      split at h
      next e2 he2 =>
        injection h with hh
        subst hh
        simp only [i32Checked] at he2
        split at he2
        · exact absurd he2 (by simp)
        · injection he2 with hh2
          exact hh2.symm
      next grown hgrown => exact absurd h (by simp)

/-- Claim C9 (amended): `finalize_moves` never returns an error;
`calculate_round_state` either succeeds or fails with the fatal arithmetic
error coming from an `i32` overflow in the summation or a subtraction.  (The
float-to-int conversion of the regenerated total, by contrast, saturates and
never raises an error — see the counterexample.) -/
theorem pure_functions_never_fail_except_overflow :
    (∀ (moves : List GameMove) (n : ℕ), ∃ o, finalize_moves moves n = .ok o) ∧
    (∀ (r : GameRound) (p : GameParams) (ms : List GameMove),
      (∃ s, calculate_round_state r p ms = .ok s) ∨
        calculate_round_state r p ms = .error .arithmeticOverflow) := by
  constructor
  · intro moves n
    unfold finalize_moves
    by_cases h1 : moves.length < n
    · exact ⟨none, by rw [if_pos h1]⟩
    · by_cases h2 : (moves.foldl pushMove []).length < n
      · exact ⟨none, by rw [if_neg h1, if_pos h2]⟩
      · exact ⟨_, by rw [if_neg h1, if_neg h2]⟩
  · intro r p ms
    cases hres : calculate_round_state r p ms with
    | ok s => exact .inl ⟨s, rfl⟩
    | error e =>
      right
      rw [calculate_round_state_error r p ms e hres]

/-- Counterexample to claim C9 as stated: with `prev.resources_left = 2^30` and
`regeneration_factor = 4.0` the regenerated total is `2^32`, which overflows
`i32`; the conversion silently saturates to `i32::MAX = 2147483647` and the
function succeeds — the overflow is neither surfaced as an error nor wrapped. -/
theorem conversion_overflow_not_fatal_counterexample :
    calculate_round_state ⟨1, 20, ⟨1073741824, 0, 0, []⟩⟩ ⟨f32Lit 4 1, 100, 3⟩
        [⟨1, 10, 0⟩]
      = .ok ⟨2147483647, 0, 1073741823, [(1, 0)]⟩ ∧
    f32TruncUnclamped (f32Mul (i32ToF32 1073741824) (f32Lit 4 1)) = 4294967296 ∧
    I32_MAX < 4294967296 := by
  refine ⟨by decide, by decide, by decide⟩

/-! ### Claims about the orchestration functions -/

/-- Claim C7: `end_game` writes exactly one session update; its status is
`Lost` (carrying the last round reference) when `resources_left ≤ 0` and
`Finished` otherwise, its scores are the final round's `player_stats`, and
`owner`, `game_params`, `players` and `anchor` are carried over unchanged. -/
theorem end_game_writes_update (w : World) (gs : GameSession) (hh : HeaderHash)
    (lr : GameRound) (lrh : EntryHash) (rs : RoundState) :
    ∃ u : GameSession,
      end_game w gs hh lr lrh rs =
        .ok (w.hashE (.session u),
          [.update hh (.session u),
           .signal (.GameOver ⟨w.hashE (.session u), lrh⟩) gs.players]) ∧
      u.status = (if rs.resources_left ≤ 0 then SessionState.Lost lrh
                  else SessionState.Finished lrh) ∧
      u.scores = rs.player_stats ∧
      u.owner = gs.owner ∧ u.game_params = gs.game_params ∧
      u.players = gs.players ∧ u.anchor = gs.anchor := by
  refine ⟨⟨gs.owner, if rs.resources_left ≤ 0 then .Lost lrh else .Finished lrh,
    gs.game_params, gs.players, rs.player_stats, gs.anchor⟩, ?_, rfl, rfl, rfl, rfl, rfl, rfl⟩
  by_cases hr : rs.resources_left ≤ 0
  · simp [end_game, hr]
  · simp [end_game, hr]

/-- Counterexample to claim C8: `new_session` performs no validation — called
with an empty `players` list it succeeds (no `InvalidInput`) and commits the
session entry, the round-zero entry and their links all the same. -/
theorem new_session_empty_players_counterexample :
    new_session ⟨[], [], fun _ => 99, 1⟩ [] ⟨f32Lit 11 10, 100, 3⟩ 30
      = .ok (99,
        [.create (.session ⟨1, .InProgress, ⟨f32Lit 11 10, 100, 3⟩, [], [], 30⟩),
         .link 1 99 OWNER_SESSION_TAG,
         .link 30 99 GAME_CODE_TO_SESSION_TAG,
         .create (.round ⟨0, 99, ⟨100, 0, 0, []⟩⟩),
         .link 99 99 SESSION_TO_ROUND_TAG,
         .signal (.StartGame ⟨99, 99⟩) []]) := by
  decide

/-- Claim C8 (amended): `new_session` never validates `players`; for every
players list — empty included — it succeeds, creating a session with status
`InProgress` and empty scores, and a round zero with `resources_left =
params.start_amount`, linked and signalled to the other players. -/
theorem new_session_always_succeeds (w : World) (players : List AgentPubKey)
    (gp : GameParams) (anchor : EntryHash) :
    ∃ (gs : GameSession) (rz : GameRound),
      gs.status = .InProgress ∧ gs.scores = [] ∧ gs.players = players ∧
      rz.round_num = 0 ∧ rz.state.resources_left = gp.start_amount ∧
      rz.session = w.hashE (.session gs) ∧
      new_session w players gp anchor =
        .ok (w.hashE (.round rz),
          [.create (.session gs),
           .link w.agent_key (w.hashE (.session gs)) OWNER_SESSION_TAG,
           .link anchor (w.hashE (.session gs)) GAME_CODE_TO_SESSION_TAG,
           .create (.round rz),
           .link (w.hashE (.session gs)) (w.hashE (.round rz)) SESSION_TO_ROUND_TAG,
           .signal (.StartGame ⟨w.hashE (.session gs), w.hashE (.round rz)⟩)
             (others w players)]) :=
  ⟨⟨w.agent_key, .InProgress, gp, players, [], anchor⟩, _,
    rfl, rfl, rfl, rfl, rfl, rfl, rfl⟩

/-- First player's move of the concrete scenario (5 resources). -/
def mv1 : GameMove := ⟨1, 10, 5⟩

/-- Second player's move of the concrete scenario (10 resources). -/
def mv2 : GameMove := ⟨2, 10, 10⟩

/-- Concrete in-progress session: two players, `num_rounds = 3`, factor `1.0`. -/
def gsT : GameSession := ⟨1, .InProgress, ⟨f32Lit 1 1, 100, 3⟩, [1, 2], [], 30⟩

/-- Concrete round at the last index (`round_num = 2` of 3). -/
def rTerm : GameRound := ⟨2, 20, ⟨100, 15, 8, [(1, 5), (2, 10)]⟩⟩

/-- Concrete round in the middle of its session (`round_num = 1` of 3). -/
def rAdv : GameRound := ⟨1, 20, ⟨100, 15, 8, [(1, 5), (2, 10)]⟩⟩

/-- World in which the last round of `gsT` is closable: both moves present. -/
def wTerm : World :=
  ⟨[(10, ⟨100, some (.round rTerm)⟩), (20, ⟨200, some (.session gsT)⟩),
    (40, ⟨400, some (.game_move mv1)⟩), (41, ⟨401, some (.game_move mv2)⟩)],
   [(10, GAME_MOVE_LINK_TAG, 40), (10, GAME_MOVE_LINK_TAG, 41)],
   fun _ => 99, 1⟩

/-- World in which a middle round of `gsT` is closable: both moves present. -/
def wAdv : World :=
  ⟨[(10, ⟨100, some (.round rAdv)⟩), (20, ⟨200, some (.session gsT)⟩),
    (40, ⟨400, some (.game_move mv1)⟩), (41, ⟨401, some (.game_move mv2)⟩)],
   [(10, GAME_MOVE_LINK_TAG, 40), (10, GAME_MOVE_LINK_TAG, 41)],
   fun _ => 99, 1⟩

/-- World in which only one of two players has moved. -/
def wWait : World :=
  ⟨[(10, ⟨100, some (.round rAdv)⟩), (20, ⟨200, some (.session gsT)⟩),
    (40, ⟨400, some (.game_move mv1)⟩)],
   [(10, GAME_MOVE_LINK_TAG, 40)],
   fun _ => 99, 1⟩

/-- Moves that deplete the pool entirely (60 + 40 = 100). -/
def mv3 : GameMove := ⟨1, 10, 60⟩

/-- Second depleting move. -/
def mv4 : GameMove := ⟨2, 10, 40⟩

/-- World in which a middle round's moves deplete all resources. -/
def wLost : World :=
  ⟨[(10, ⟨100, some (.round rAdv)⟩), (20, ⟨200, some (.session gsT)⟩),
    (42, ⟨402, some (.game_move mv3)⟩), (43, ⟨403, some (.game_move mv4)⟩)],
   [(10, GAME_MOVE_LINK_TAG, 42), (10, GAME_MOVE_LINK_TAG, 43)],
   fun _ => 99, 1⟩

/-- Counterexample to claim C1: at a concrete closable last round the
terminate branch returns `SHOW_GAME_RESULTS` with an *empty* effect trace —
no session update is written, i.e. `end_game` is not invoked (the source
defers closing the session: its comment reads "we'll be closing the game
session here, later in the devcamp"). -/
theorem try_to_close_round_no_end_game_counterexample :
    try_to_close_round wTerm 10
      = .ok (⟨3, none, none, none, none, none, none, "SHOW_GAME_RESULTS", []⟩, []) := by
  decide

/-- Claim C1 (amended): when the round's moves finalize but advancement is not
possible, `try_to_close_round` returns a terminate-status result
(`SHOW_GAME_RESULTS`) carrying no new round reference — and performs no writes
at all: `end_game` is not invoked and the session status is left unchanged. -/
theorem try_to_close_round_terminate_no_session_update (w : World) (hsh : EntryHash)
    (el : Element) (r : GameRound) (els : Element) (gs : GameSession)
    (ms um : List GameMove) (rs : RoundState)
    (h1 : try_get_element w hsh = .ok el)
    (h2 : try_from_element_round el = .ok r)
    (h3 : try_get_element w r.session = .ok els)
    (h4 : try_from_element_session els = .ok gs)
    (h5 : get_moves_for_round w hsh = .ok ms)
    (h6 : finalize_moves ms gs.players.length = .ok (some um))
    (h7 : calculate_round_state r gs.game_params um = .ok rs)
    (hcond : ¬(r.round_num + 1 < gs.game_params.num_rounds ∧ 0 < rs.resources_left)) :
    try_to_close_round w hsh =
      .ok (⟨r.round_num + 1, none, none, none, none, none, none,
            "SHOW_GAME_RESULTS", []⟩, []) := by
  have hb : ¬(can_start_new_round gs r rs = true) := by
    simp only [can_start_new_round, Bool.and_eq_true, decide_eq_true_eq]
    exact hcond
  simp only [try_to_close_round, h1, h2, h3, h4, h5, h6, h7, if_neg hb]

/-- Witness for the amended C1 at a depleted concrete round: resources drop to
`0`, the terminate branch runs, and the effect trace is empty. -/
theorem try_to_close_round_terminate_no_session_update_witness :
    try_to_close_round wLost 10 =
      .ok (⟨rAdv.round_num + 1, none, none, none, none, none, none,
            "SHOW_GAME_RESULTS", []⟩, []) :=
  try_to_close_round_terminate_no_session_update wLost 10
    ⟨100, some (.round rAdv)⟩ rAdv ⟨200, some (.session gsT)⟩ gsT
    [mv3, mv4] [mv3, mv4] ⟨0, 100, 0, [(1, 60), (2, 40)]⟩
    (by decide) (by decide) (by decide) (by decide) (by decide) (by decide)
    (by decide) (by decide)

/-- Claim C2: after a successful finalize and state computation,
`try_to_close_round` advances (creates the round `N+1` update and answers
`START_NEXT_ROUND`) if and only if `round_num + 1 < num_rounds` and the next
state's `resources_left` is positive; otherwise it takes the terminate branch. -/
theorem try_to_close_round_advance_iff (w : World) (hsh : EntryHash)
    (el : Element) (r : GameRound) (els : Element) (gs : GameSession)
    (ms um : List GameMove) (rs : RoundState) (info : GameRoundInfo)
    (effs : List Effect)
    (h1 : try_get_element w hsh = .ok el)
    (h2 : try_from_element_round el = .ok r)
    (h3 : try_get_element w r.session = .ok els)
    (h4 : try_from_element_session els = .ok gs)
    (h5 : get_moves_for_round w hsh = .ok ms)
    (h6 : finalize_moves ms gs.players.length = .ok (some um))
    (h7 : calculate_round_state r gs.game_params um = .ok rs)
    (hrun : try_to_close_round w hsh = .ok (info, effs)) :
    ((info.next_action = "START_NEXT_ROUND" ∧
        effs = [.update el.header_address (.round (GameRound.new (r.round_num + 1)
          r.session rs.resources_left rs.resources_taken rs.resources_grown
          rs.player_stats))])
      ↔ (r.round_num + 1 < gs.game_params.num_rounds ∧ 0 < rs.resources_left)) ∧
    (¬(r.round_num + 1 < gs.game_params.num_rounds ∧ 0 < rs.resources_left) →
      info.next_action = "SHOW_GAME_RESULTS" ∧
      info.current_round_entry_hash = none ∧ effs = []) := by
  simp only [try_to_close_round, create_new_round, h1, h2, h3, h4, h5, h6, h7] at hrun
  by_cases hcond : r.round_num + 1 < gs.game_params.num_rounds ∧ 0 < rs.resources_left
  · have hb : can_start_new_round gs r rs = true := by
      simp only [can_start_new_round, Bool.and_eq_true, decide_eq_true_eq]
      exact hcond
    rw [if_pos hb] at hrun
    injection hrun with hpair
    rw [Prod.mk.injEq] at hpair
    obtain ⟨hinfo, heffs⟩ := hpair
    constructor
    · constructor
      · intro _
        exact hcond
      · intro _
        rw [← hinfo, ← heffs]
        exact ⟨rfl, rfl⟩
    · intro hc
      exact absurd hcond hc
  · have hb : ¬(can_start_new_round gs r rs = true) := by
      simp only [can_start_new_round, Bool.and_eq_true, decide_eq_true_eq]
      exact hcond
    rw [if_neg hb] at hrun
    injection hrun with hpair
    rw [Prod.mk.injEq] at hpair
    obtain ⟨hinfo, heffs⟩ := hpair
    constructor
    · constructor
      · intro hadv
        rw [← hinfo] at hadv
        exact absurd hadv.1 (by simp)
      · intro hc
        exact absurd hc hcond
    · intro _
      rw [← hinfo, ← heffs]
      exact ⟨rfl, rfl, rfl⟩

/-- Expected `GameRoundInfo` of the concrete advance scenario. -/
def infoAdv : GameRoundInfo :=
  ⟨2, some 85, some 15, some 0, some 99, some 10, none, "START_NEXT_ROUND",
   [(5, "playername", 1), (10, "playername", 2)]⟩

/-- Next-round state of the concrete advance scenario (factor `1.0`). -/
def rsAdv : RoundState := ⟨85, 15, 0, [(1, 5), (2, 10)]⟩

/-- Effect trace of the concrete advance scenario: one round update. -/
def effsAdv : List Effect := [.update 100 (.round ⟨2, 20, ⟨85, 15, 0, [(1, 5), (2, 10)]⟩⟩)]

/-- Witness for C2 at the concrete advance scenario: round 1 of 3, positive
leftover, so the round update is written and `START_NEXT_ROUND` returned. -/
theorem try_to_close_round_advance_iff_witness :
    ((infoAdv.next_action = "START_NEXT_ROUND" ∧
        effsAdv = [.update (Element.header_address ⟨100, some (.round rAdv)⟩)
          (.round (GameRound.new (rAdv.round_num + 1) rAdv.session
            rsAdv.resources_left rsAdv.resources_taken rsAdv.resources_grown
            rsAdv.player_stats))])
      ↔ (rAdv.round_num + 1 < gsT.game_params.num_rounds ∧ 0 < rsAdv.resources_left)) ∧
    (¬(rAdv.round_num + 1 < gsT.game_params.num_rounds ∧ 0 < rsAdv.resources_left) →
      infoAdv.next_action = "SHOW_GAME_RESULTS" ∧
      infoAdv.current_round_entry_hash = none ∧ effsAdv = []) :=
  try_to_close_round_advance_iff wAdv 10 ⟨100, some (.round rAdv)⟩ rAdv
    ⟨200, some (.session gsT)⟩ gsT [mv1, mv2] [mv1, mv2] rsAdv infoAdv effsAdv
    (by decide) (by decide) (by decide) (by decide) (by decide) (by decide)
    (by decide) (by decide)

/-- Claim C10: when the moves do not finalize, `try_to_close_round` performs
no writes and returns a `WAITING` result carrying the round's own reference,
its session reference, and the unchanged `round_num`. -/
theorem try_to_close_round_waiting (w : World) (hsh : EntryHash) (el : Element)
    (r : GameRound) (els : Element) (gs : GameSession) (ms : List GameMove)
    (h1 : try_get_element w hsh = .ok el)
    (h2 : try_from_element_round el = .ok r)
    (h3 : try_get_element w r.session = .ok els)
    (h4 : try_from_element_session els = .ok gs)
    (h5 : get_moves_for_round w hsh = .ok ms)
    (h6 : finalize_moves ms gs.players.length = .ok none) :
    try_to_close_round w hsh =
      .ok (⟨r.round_num, none, none, none, none, some hsh, some r.session,
            "WAITING", []⟩, []) := by
  simp only [try_to_close_round, h1, h2, h3, h4, h5, h6]

/-- Witness for C10: with only one of two players' moves present, the poll is
a no-op returning `WAITING` with the round and session references. -/
theorem try_to_close_round_waiting_witness :
    try_to_close_round wWait 10 =
      .ok (⟨rAdv.round_num, none, none, none, none, some 10, some rAdv.session,
            "WAITING", []⟩, []) :=
  try_to_close_round_waiting wWait 10 ⟨100, some (.round rAdv)⟩ rAdv
    ⟨200, some (.session gsT)⟩ gsT [mv1]
    (by decide) (by decide) (by decide) (by decide) (by decide) (by decide)

end GameOfCommons
